import Mathlib

/-!
Verification of the natural-language specification of the
`PIQuIL/NN_Quantum_SaoPaulo` repository (notebook `3_VMC_Rydberg.ipynb`)
against a shallow embedding of its code.

The notebook implements a variational Monte Carlo (VMC) ground-state search
for a 2-D Rydberg-atom Hamiltonian with an autoregressive GRU wavefunction:

* `VariationalMonteCarlo.sample`      : ancestral sampling, returns samples
  and their accumulated log-probabilities;
* `VariationalMonteCarlo.logpsi`      : teacher-forced rescoring, returns one
  half of the total log-probability;
* `VariationalMonteCarlo.localenergy` : diagonal + off-diagonal local energy;
* `VariationalMonteCarlo.buildlattice`/`coord_to_site` : NN/NNN/NNNN bond
  lists of the open-boundary square lattice;
* the cell-7 training loop (loss and the energy/variance records).

Embedding conventions.  Tensor floats are modelled as real numbers.  The GRU
cell is an external primitive supplied by the tensor runtime (the spec lists
it as an external collaborator), so a model is an arbitrary step function
`cell : input × hidden → output × hidden` together with the weights of the
final dense layer; the softmax activation of the dense layer is embedded
explicitly, since the normalization claims rest on it.  Batched tensor
operations in the notebook act row-wise independently, so configurations are
modelled per sequence and batches as lists.  The local Hilbert dimension is
the notebook's `K = 2`.
-/

/-- Parameters θ of the notebook's model: an abstract recurrent cell
(the `tf.keras.layers.GRU` primitive: input and hidden state in, output and
new hidden state out, the same weights at every site) and the weights of the
final `Dense(K, activation=softmax)` layer. -/
structure RNN (nh : ℕ) where
  cell : (Fin 2 → ℝ) → (Fin nh → ℝ) → (Fin nh → ℝ) × (Fin nh → ℝ)
  W : Fin 2 → Fin nh → ℝ
  b : Fin 2 → ℝ

/-- Zero start-of-sequence input: `inputs = 0.0*tf.one_hot(...)`. -/
def x0 : Fin 2 → ℝ := fun _ => 0

/-- Zero initial hidden state: `hidden_state = tf.zeros(...)`. -/
def h0 (nh : ℕ) : Fin nh → ℝ := fun _ => 0

/-- One-hot encoding of a local state, `tf.one_hot(sample, depth=K)`. -/
def onehot (c : Fin 2) : Fin 2 → ℝ := fun k => if k = c then 1 else 0

/-- Softmax over the K = 2 outcomes (activation of the dense layer). -/
noncomputable def softmax (z : Fin 2 → ℝ) : Fin 2 → ℝ :=
  fun k => Real.exp (z k) / ∑ j, Real.exp (z j)

/-- The dense projection `self.dense`: affine map `W·o + b` followed by
softmax, giving the per-site categorical distribution. -/
noncomputable def dense {nh : ℕ} (M : RNN nh) (o : Fin nh → ℝ) : Fin 2 → ℝ :=
  softmax fun k => (∑ i, M.W k i * o i) + M.b k

/-- One sequence of `VariationalMonteCarlo.sample`, unrolled.  `n` is the
number of sites still to generate, `j` the current site index, `inp` the
input fed to the cell (start token or one-hot of the previous outcome) and
`h` the running hidden state.  The categorical draw of
`tf.random.categorical` is modelled by the outcome oracle `xi`, which may
depend on the site index and on the categorical distribution offered there;
whatever outcome it picks, the code adds that outcome's
`log(1e-10 + probs)` to the running total `logP`. -/
noncomputable def sampleAux {nh : ℕ} (M : RNN nh)
    (xi : ℕ → (Fin 2 → ℝ) → Fin 2) :
    ℕ → ℕ → (Fin 2 → ℝ) → (Fin nh → ℝ) → List (Fin 2) × ℝ
  | 0, _, _, _ => ([], 0)
  | n + 1, j, inp, h =>
    let o := (M.cell inp h).1
    let h' := (M.cell inp h).2
    let probs := dense M o
    let c := xi j probs
    let rest := sampleAux M xi n (j + 1) (onehot c) h'
    (c :: rest.1, Real.log (1e-10 + probs c) + rest.2)

/-- `VariationalMonteCarlo.sample` for one sequence: N sites generated from
the zero start token and zero hidden state; returns the configuration and
its accumulated total log-probability `logP`. -/
noncomputable def sample {nh : ℕ} (M : RNN nh) (N : ℕ)
    (xi : ℕ → (Fin 2 → ℝ) → Fin 2) : List (Fin 2) × ℝ :=
  sampleAux M xi N 0 x0 (h0 nh)

/-- A batch of `nsamples` sequences.  Every tensor operation in `sample`
acts row-wise, and `tf.random.categorical` draws each row independently, so
the batch is the list of independent per-sequence runs, with `Xi i` the
randomness of row `i`. -/
noncomputable def sampleBatch {nh : ℕ} (M : RNN nh) (N B : ℕ)
    (Xi : ℕ → ℕ → (Fin 2 → ℝ) → Fin 2) : List (List (Fin 2) × ℝ) :=
  (List.range B).map fun i => sample M N (Xi i)

/-- The GRU layer applied to a whole input sequence with threaded hidden
state (`self.rnn(inputs, initial_state=hidden_state)` with
`return_sequences=True`), followed at every step by the dense projection;
returns the per-step categorical distributions. -/
noncomputable def runRNN {nh : ℕ} (M : RNN nh) :
    List (Fin 2 → ℝ) → (Fin nh → ℝ) → List (Fin 2 → ℝ)
  | [], _ => []
  | i :: rest, h => dense M (M.cell i h).1 :: runRNN M rest (M.cell i h).2

/-- `VariationalMonteCarlo.logpsi` for one sequence: shift the configuration
right by one (`samples[:, 0:N-1]`), prepend the zero start token, run the
GRU over the whole sequence from the zero hidden state, project every step
to probabilities, pick the `log(1e-10 + probs)` of the actually observed
outcome at every step, and return half of the total. -/
noncomputable def logpsi {nh : ℕ} (M : RNN nh) (N : ℕ) (s : List (Fin 2)) : ℝ :=
  let inputs := x0 :: (s.take (N - 1)).map onehot
  let probs := runRNN M inputs (h0 nh)
  0.5 * ((probs.zip s).map fun q => Real.log (1e-10 + q.1 q.2)).sum

/-- Teacher-forced accumulation of `log(1e-10 + probs)` along a
configuration: the common chain underlying both `sample`'s bookkeeping and
`logpsi`'s rescoring. -/
noncomputable def chainSum {nh : ℕ} (M : RNN nh) :
    (Fin 2 → ℝ) → (Fin nh → ℝ) → List (Fin 2) → ℝ
  | _, _, [] => 0
  | inp, h, c :: rest =>
    Real.log (1e-10 + dense M (M.cell inp h).1 c) +
      chainSum M (onehot c) (M.cell inp h).2 rest

theorem sampleAux_length {nh : ℕ} (M : RNN nh) (xi : ℕ → (Fin 2 → ℝ) → Fin 2) :
    ∀ (n j : ℕ) (inp : Fin 2 → ℝ) (h : Fin nh → ℝ),
      (sampleAux M xi n j inp h).1.length = n := by
  intro n
  induction n with
  | zero => intro j inp h; rfl
  | succ n ih =>
    intro j inp h
    simp [sampleAux, ih]

theorem chainSum_sampleAux {nh : ℕ} (M : RNN nh)
    (xi : ℕ → (Fin 2 → ℝ) → Fin 2) :
    ∀ (n j : ℕ) (inp : Fin 2 → ℝ) (h : Fin nh → ℝ),
      chainSum M inp h (sampleAux M xi n j inp h).1 =
        (sampleAux M xi n j inp h).2 := by
  intro n
  induction n with
  | zero => intro j inp h; rfl
  | succ n ih =>
    intro j inp h
    simp only [sampleAux, chainSum]
    rw [ih]

theorem zip_runRNN_chainSum {nh : ℕ} (M : RNN nh) :
    ∀ (s : List (Fin 2)) (inp : Fin 2 → ℝ) (h : Fin nh → ℝ),
      (((runRNN M (inp :: s.dropLast.map onehot) h).zip s).map
          fun q => Real.log (1e-10 + q.1 q.2)).sum =
        chainSum M inp h s := by
  intro s
  induction s with
  | nil => intro inp h; simp [runRNN, chainSum]
  | cons c rest ih =>
    intro inp h
    cases rest with
    | nil => simp [runRNN, chainSum]
    | cons d t =>
      have hdl : (c :: d :: t).dropLast = c :: (d :: t).dropLast := rfl
      have step : runRNN M (inp :: onehot c :: List.map onehot (d :: t).dropLast) h
          = dense M (M.cell inp h).1 ::
            runRNN M (onehot c :: List.map onehot (d :: t).dropLast) (M.cell inp h).2 := rfl
      rw [hdl, List.map_cons, step, List.zip_cons_cons, List.map_cons,
        List.sum_cons, ih (onehot c) (M.cell inp h).2]
      rfl

theorem take_pred_of_length {α : Type} (s : List α) (N : ℕ) (hs : s.length = N) :
    s.take (N - 1) = s.dropLast := by
  rw [List.dropLast_eq_take, hs]

/-- For a length-N configuration, `logpsi` is half of the teacher-forced
chain total started from the zero token and zero hidden state. -/
theorem logpsi_eq_chainSum {nh : ℕ} (M : RNN nh) (N : ℕ) (s : List (Fin 2))
    (hs : s.length = N) :
    logpsi M N s = 0.5 * chainSum M x0 (h0 nh) s := by
  simp only [logpsi]
  rw [take_pred_of_length s N hs, zip_runRNN_chainSum]

/-- Claim C1: sampling/scoring consistency.  For every batch of
configurations produced by `sample`, with unchanged model parameters,
`logpsi` applied to those configurations returns exactly one half of the
per-sequence log-probability totals that `sample` accumulated and returned
alongside them: the teacher-forced rescoring chain reproduces the same
per-site categorical distributions, with the same `1e-10` floor, as the
ancestral sampling chain. -/
theorem sampling_scoring_consistency {nh : ℕ} (M : RNN nh) (N B : ℕ)
    (Xi : ℕ → ℕ → (Fin 2 → ℝ) → Fin 2) :
    (sampleBatch M N B Xi).map (fun r => logpsi M N r.1) =
      (sampleBatch M N B Xi).map (fun r => 0.5 * r.2) := by
  apply List.map_congr_left
  intro r hr
  simp only [sampleBatch, List.mem_map] at hr
  obtain ⟨i, _, rfl⟩ := hr
  simp only [sample]
  rw [logpsi_eq_chainSum M N _ (sampleAux_length M (Xi i) N 0 x0 (h0 nh)),
    chainSum_sampleAux]

/-- Product form of the teacher-forced chain: the product over all sites of
`1e-10 + probs` at the observed outcomes. -/
noncomputable def prodChain {nh : ℕ} (M : RNN nh) :
    (Fin 2 → ℝ) → (Fin nh → ℝ) → List (Fin 2) → ℝ
  | _, _, [] => 1
  | inp, h, c :: rest =>
    (1e-10 + dense M (M.cell inp h).1 c) *
      prodChain M (onehot c) (M.cell inp h).2 rest

/-- All 2^N binary configurations of N sites. -/
def allConfigs : ℕ → List (List (Fin 2))
  | 0 => [[]]
  | n + 1 => ([0, 1] : List (Fin 2)).flatMap fun c => (allConfigs n).map (c :: ·)

theorem softmax_pos (z : Fin 2 → ℝ) (k : Fin 2) : 0 < softmax z k := by
  unfold softmax
  apply div_pos (Real.exp_pos _)
  rw [Fin.sum_univ_two]
  positivity

theorem softmax_sum (z : Fin 2 → ℝ) : softmax z 0 + softmax z 1 = 1 := by
  unfold softmax
  rw [div_add_div_same, Fin.sum_univ_two, div_self]
  positivity

theorem dense_pos {nh : ℕ} (M : RNN nh) (o : Fin nh → ℝ) (k : Fin 2) :
    0 < dense M o k := softmax_pos _ k

theorem dense_sum {nh : ℕ} (M : RNN nh) (o : Fin nh → ℝ) :
    dense M o 0 + dense M o 1 = 1 := softmax_sum _

theorem exp_chainSum {nh : ℕ} (M : RNN nh) :
    ∀ (s : List (Fin 2)) (inp : Fin 2 → ℝ) (h : Fin nh → ℝ),
      Real.exp (chainSum M inp h s) = prodChain M inp h s := by
  intro s
  induction s with
  | nil => intro inp h; simp [chainSum, prodChain]
  | cons c rest ih =>
    intro inp h
    have hpos : (0 : ℝ) < 1e-10 + dense M (M.cell inp h).1 c := by
      have := dense_pos M (M.cell inp h).1 c
      norm_num
      linarith
    simp only [chainSum, prodChain, Real.exp_add, ih]
    rw [Real.exp_log hpos]

theorem mem_allConfigs_length {n : ℕ} {s : List (Fin 2)} :
    s ∈ allConfigs n → s.length = n := by
  induction n generalizing s with
  | zero => intro hs; simp [allConfigs] at hs; simp [hs]
  | succ n ih =>
    intro hs
    simp only [allConfigs, List.mem_flatMap, List.mem_map] at hs
    obtain ⟨c, _, t, ht, rfl⟩ := hs
    simp [ih ht]

theorem allConfigs_succ (n : ℕ) :
    allConfigs (n + 1) =
      (allConfigs n).map ((0 : Fin 2) :: ·) ++ (allConfigs n).map ((1 : Fin 2) :: ·) := by
  simp [allConfigs, List.flatMap]

theorem sum_prodChain {nh : ℕ} (M : RNN nh) :
    ∀ (n : ℕ) (inp : Fin 2 → ℝ) (h : Fin nh → ℝ),
      ((allConfigs n).map (prodChain M inp h)).sum = (1 + 2 * (1e-10 : ℝ)) ^ n := by
  intro n
  induction n with
  | zero => intro inp h; simp [allConfigs, prodChain]
  | succ n ih =>
    intro inp h
    rw [allConfigs_succ, List.map_append, List.sum_append, List.map_map, List.map_map]
    have e0 : ((allConfigs n).map (prodChain M inp h ∘ ((0 : Fin 2) :: ·))).sum
        = (1e-10 + dense M (M.cell inp h).1 0) * (1 + 2 * (1e-10 : ℝ)) ^ n := by
      have : (allConfigs n).map (prodChain M inp h ∘ ((0 : Fin 2) :: ·))
          = (allConfigs n).map fun t =>
              (1e-10 + dense M (M.cell inp h).1 0) *
                prodChain M (onehot 0) (M.cell inp h).2 t := rfl
      rw [this, List.sum_map_mul_left, ih]
    have e1 : ((allConfigs n).map (prodChain M inp h ∘ ((1 : Fin 2) :: ·))).sum
        = (1e-10 + dense M (M.cell inp h).1 1) * (1 + 2 * (1e-10 : ℝ)) ^ n := by
      have : (allConfigs n).map (prodChain M inp h ∘ ((1 : Fin 2) :: ·))
          = (allConfigs n).map fun t =>
              (1e-10 + dense M (M.cell inp h).1 1) *
                prodChain M (onehot 1) (M.cell inp h).2 t := rfl
      rw [this, List.sum_map_mul_left, ih]
    rw [e0, e1]
    have hd := dense_sum M (M.cell inp h).1
    have : (1e-10 + dense M (M.cell inp h).1 0) + (1e-10 + dense M (M.cell inp h).1 1)
        = 1 + 2 * (1e-10 : ℝ) := by linarith
    rw [pow_succ]
    nlinarith [pow_nonneg (by norm_num : (0:ℝ) ≤ 1 + 2 * (1e-10 : ℝ)) n]

/-- Claim C3: normalization.  For any parameter values θ (any cell function
and dense weights, trained or untrained) and any N, the sum over all 2^N
binary configurations of `exp(2 * logpsi(s))` equals `(1 + 2e-10)^N`
exactly — the autoregressive softmax chain sums to one at every site, and
the deliberate `1e-10` floor adds `2e-10` per site — and is therefore equal
to 1 within floating tolerance (within 1e-8 for all feasible N ≤ 10). -/
theorem wavefunction_normalization {nh : ℕ} (M : RNN nh) (N : ℕ) :
    ((allConfigs N).map fun s => Real.exp (2 * logpsi M N s)).sum
        = (1 + 2 * (1e-10 : ℝ)) ^ N ∧
      (N ≤ 10 →
        |((allConfigs N).map fun s => Real.exp (2 * logpsi M N s)).sum - 1|
          < 1e-8) := by
  have key : ∀ s ∈ allConfigs N,
      Real.exp (2 * logpsi M N s) = prodChain M x0 (h0 nh) s := by
    intro s hs
    rw [logpsi_eq_chainSum M N s (mem_allConfigs_length hs),
      show (2 : ℝ) * (0.5 * chainSum M x0 (h0 nh) s) = chainSum M x0 (h0 nh) s
        by ring]
    exact exp_chainSum M s x0 (h0 nh)
  have hsum : ((allConfigs N).map fun s => Real.exp (2 * logpsi M N s)).sum
      = (1 + 2 * (1e-10 : ℝ)) ^ N := by
    rw [List.map_congr_left key, sum_prodChain]
  refine ⟨hsum, fun hN => ?_⟩
  rw [hsum]
  have h1 : (1 : ℝ) ≤ 1 + 2 * 1e-10 := by norm_num
  have hge : (1 : ℝ) ≤ (1 + 2 * (1e-10 : ℝ)) ^ N := one_le_pow₀ h1
  rw [abs_of_nonneg (by linarith)]
  have hle : (1 + 2 * (1e-10 : ℝ)) ^ N ≤ (1 + 2 * (1e-10 : ℝ)) ^ 10 :=
    pow_le_pow_right₀ h1 hN
  have hb : (1 + 2 * (1e-10 : ℝ)) ^ 10 < 1 + 1e-8 := by norm_num
  linarith

/-- A concrete instance of the model parameters (one hidden unit, zero cell
and zero dense weights), used to instantiate universally quantified theorems
at explicit inputs. -/
def M0 : RNN 1 where
  cell := fun _ _ => (fun _ => 0, fun _ => 0)
  W := fun _ _ => 0
  b := fun _ => 0

/-- Witness for claim C3 at the concrete model `M0` and N = 2. -/
theorem wavefunction_normalization_witness :
    2 ≤ 10 ∧
      |((allConfigs 2).map fun s => Real.exp (2 * logpsi M0 2 s)).sum - 1|
        < 1e-8 :=
  ⟨by norm_num, (wavefunction_normalization M0 2).2 (by norm_num)⟩

/-- Python `range(k)` as a list of integers (empty for non-positive `k`). -/
def intRange (k : ℤ) : List ℤ := (List.range k.toNat).map (fun i : ℕ => (i : ℤ))

/-- `VariationalMonteCarlo.coord_to_site`: site index `Ly*x + y`. -/
def coord_to_site (Ly x y : ℤ) : ℤ := Ly * x + y

/-- A doubly nested Python loop `for u in range(A): for v in range(B):
append(g(u, v))`, as used by `buildlattice` for the NN and NNNN bond lists. -/
def fam (A B : ℤ) (g : ℤ → ℤ → ℤ × ℤ) : List (ℤ × ℤ) :=
  (intRange A).flatMap fun u => (intRange B).map fun v => g u v

/-- A doubly nested Python loop appending two bonds per inner iteration, as
used by `buildlattice` for the NNN list. -/
def fam2 (A B : ℤ) (g1 g2 : ℤ → ℤ → ℤ × ℤ) : List (ℤ × ℤ) :=
  (intRange A).flatMap fun u => (intRange B).flatMap fun v => [g1 u v, g2 u v]

/-- The `self.nn` list of `buildlattice`: vertical bonds
(`for x in range(Lx): for y in range(Ly-1)`), then horizontal bonds
(`for y in range(Ly): for x in range(Lx-1)`). -/
def nnList (Lx Ly : ℤ) : List (ℤ × ℤ) :=
  fam Lx (Ly - 1) (fun x y => (coord_to_site Ly x y, coord_to_site Ly x (y + 1))) ++
    fam Ly (Lx - 1) (fun y x => (coord_to_site Ly x y, coord_to_site Ly (x + 1) y))

/-- The `self.nnn` list of `buildlattice`: for each unit cell
(`for y in range(Ly-1): for x in range(Lx-1)`) the two diagonals. -/
def nnnList (Lx Ly : ℤ) : List (ℤ × ℤ) :=
  fam2 (Ly - 1) (Lx - 1)
    (fun y x => (coord_to_site Ly x y, coord_to_site Ly (x + 1) (y + 1)))
    (fun y x => (coord_to_site Ly (x + 1) y, coord_to_site Ly x (y + 1)))

/-- The `self.nnnn` list of `buildlattice`: horizontal distance-2 bonds
(`for y in range(Ly): for x in range(Lx-2)`), then vertical distance-2 bonds
(`for y in range(Ly-2): for x in range(Lx)`). -/
def nnnnList (Lx Ly : ℤ) : List (ℤ × ℤ) :=
  fam Ly (Lx - 2) (fun y x => (coord_to_site Ly x y, coord_to_site Ly (x + 2) y)) ++
    fam (Ly - 2) Lx (fun y x => (coord_to_site Ly x y, coord_to_site Ly x (y + 2)))

/-- `VariationalMonteCarlo.buildlattice`: the three bond lists. -/
def buildlattice (Lx Ly : ℤ) :
    List (ℤ × ℤ) × List (ℤ × ℤ) × List (ℤ × ℤ) :=
  (nnList Lx Ly, nnnList Lx Ly, nnnnList Lx Ly)

/-- Claim C5: topology counts.  For `Lx = Ly = 2` the NN list has exactly 4
pairs, NNN exactly 2, NNNN exactly 0; for `Lx = Ly = 4` the NN list has 24,
NNN 18 and NNNN 16 pairs. -/
theorem topology_counts :
    (buildlattice 2 2).1.length = 4 ∧
      (buildlattice 2 2).2.1.length = 2 ∧
      (buildlattice 2 2).2.2.length = 0 ∧
      (buildlattice 4 4).1.length = 24 ∧
      (buildlattice 4 4).2.1.length = 18 ∧
      (buildlattice 4 4).2.2.length = 16 := by
  refine ⟨rfl, rfl, rfl, rfl, rfl, rfl⟩

/-- Unordered-pair key of a bond: the pair sorted ascending, used to detect
duplicates irrespective of listing order. -/
def uk (p : ℤ × ℤ) : ℤ × ℤ := (min p.1 p.2, max p.1 p.2)

theorem uk_of_le {p : ℤ × ℤ} (h : p.1 ≤ p.2) : uk p = p := by
  unfold uk
  rw [min_eq_left h, max_eq_right h]

theorem uk_of_ge {a b : ℤ} (h : b ≤ a) : uk (a, b) = (b, a) := by
  unfold uk
  rw [min_eq_right h, max_eq_left h]

theorem mem_intRange {k c : ℤ} : c ∈ intRange k ↔ 0 ≤ c ∧ c < k := by
  simp only [intRange, List.mem_map, List.mem_range]
  constructor
  · rintro ⟨i, hi, rfl⟩
    omega
  · rintro ⟨h1, h2⟩
    exact ⟨c.toNat, by omega, by omega⟩

theorem intRange_nodup (k : ℤ) : (intRange k).Nodup := by
  unfold intRange
  exact List.Nodup.map (fun a b h => by omega) (List.nodup_range _)

theorem mem_fam {A B : ℤ} {g : ℤ → ℤ → ℤ × ℤ} {p : ℤ × ℤ} :
    p ∈ fam A B g ↔
      ∃ u v, 0 ≤ u ∧ u < A ∧ 0 ≤ v ∧ v < B ∧ p = g u v := by
  simp only [fam, List.mem_flatMap, List.mem_map]
  constructor
  · rintro ⟨u, hu, v, hv, rfl⟩
    rw [mem_intRange] at hu hv
    exact ⟨u, v, hu.1, hu.2, hv.1, hv.2, rfl⟩
  · rintro ⟨u, v, h1, h2, h3, h4, rfl⟩
    exact ⟨u, mem_intRange.2 ⟨h1, h2⟩, v, mem_intRange.2 ⟨h3, h4⟩, rfl⟩

theorem mem_fam2 {A B : ℤ} {g1 g2 : ℤ → ℤ → ℤ × ℤ} {p : ℤ × ℤ} :
    p ∈ fam2 A B g1 g2 ↔
      ∃ u v, 0 ≤ u ∧ u < A ∧ 0 ≤ v ∧ v < B ∧ (p = g1 u v ∨ p = g2 u v) := by
  simp only [fam2, List.mem_flatMap, List.mem_cons, List.not_mem_nil, or_false]
  constructor
  · rintro ⟨u, hu, v, hv, h | h⟩ <;>
      (rw [mem_intRange] at hu hv;
       exact ⟨u, v, hu.1, hu.2, hv.1, hv.2, by tauto⟩)
  · rintro ⟨u, v, h1, h2, h3, h4, h⟩
    exact ⟨u, mem_intRange.2 ⟨h1, h2⟩, v, mem_intRange.2 ⟨h3, h4⟩, by tauto⟩

theorem map_fam {A B : ℤ} (g : ℤ → ℤ → ℤ × ℤ) (f : ℤ × ℤ → ℤ × ℤ) :
    (fam A B g).map f = fam A B fun u v => f (g u v) := by
  simp [fam, List.map_flatMap, Function.comp_def]

theorem map_fam2 {A B : ℤ} (g1 g2 : ℤ → ℤ → ℤ × ℤ) (f : ℤ × ℤ → ℤ × ℤ) :
    (fam2 A B g1 g2).map f =
      fam2 A B (fun u v => f (g1 u v)) (fun u v => f (g2 u v)) := by
  simp [fam2, List.map_flatMap]

theorem nodup_fam {A B : ℤ} {g : ℤ → ℤ → ℤ × ℤ}
    (hinj : ∀ u v u' v', 0 ≤ u → u < A → 0 ≤ v → v < B →
      0 ≤ u' → u' < A → 0 ≤ v' → v' < B → g u v = g u' v' → u = u' ∧ v = v') :
    (fam A B g).Nodup := by
  rw [fam, List.nodup_flatMap]
  constructor
  · intro u hu
    rw [mem_intRange] at hu
    refine List.Nodup.map_on ?_ (intRange_nodup B)
    intro v hv v' hv' hgv
    rw [mem_intRange] at hv hv'
    exact (hinj u v u v' hu.1 hu.2 hv.1 hv.2 hu.1 hu.2 hv'.1 hv'.2 hgv).2
  · rw [List.pairwise_iff_forall_sublist]
    rintro u u' hsub
    have hu := hsub.subset (by simp : u ∈ [u, u'])
    have hu' := hsub.subset (by simp : u' ∈ [u, u'])
    have hnd : ([u, u'] : List ℤ).Nodup := List.Nodup.sublist hsub (intRange_nodup A)
    have hne : u ≠ u' := by
      intro h
      rw [h] at hnd
      simp at hnd
    intro p hp hp'
    simp only [Function.onFun, List.mem_map] at hp hp'
    obtain ⟨v, hv, rfl⟩ := hp
    obtain ⟨v', hv', hq⟩ := hp'
    rw [mem_intRange] at hu hu' hv hv'
    exact hne (hinj u v u' v' hu.1 hu.2 hv.1 hv.2 hu'.1 hu'.2 hv'.1 hv'.2 hq.symm).1

theorem mem_flatMap_pair {B : ℤ} {g1 g2 : ℤ → ℤ → ℤ × ℤ} {u : ℤ} {p : ℤ × ℤ} :
    p ∈ (intRange B).flatMap (fun v => [g1 u v, g2 u v]) ↔
      ∃ v, 0 ≤ v ∧ v < B ∧ (p = g1 u v ∨ p = g2 u v) := by
  simp only [List.mem_flatMap, List.mem_cons, List.not_mem_nil, or_false]
  constructor
  · rintro ⟨v, hv, h⟩
    rw [mem_intRange] at hv
    exact ⟨v, hv.1, hv.2, h⟩
  · rintro ⟨v, h1, h2, h⟩
    exact ⟨v, mem_intRange.2 ⟨h1, h2⟩, h⟩

theorem nodup_fam2 {A B : ℤ} {g1 g2 : ℤ → ℤ → ℤ × ℤ}
    (h1 : ∀ u v u' v', 0 ≤ u → u < A → 0 ≤ v → v < B →
      0 ≤ u' → u' < A → 0 ≤ v' → v' < B →
      g1 u v = g1 u' v' → u = u' ∧ v = v')
    (h2 : ∀ u v u' v', 0 ≤ u → u < A → 0 ≤ v → v < B →
      0 ≤ u' → u' < A → 0 ≤ v' → v' < B →
      g2 u v = g2 u' v' → u = u' ∧ v = v')
    (h12 : ∀ u v u' v', 0 ≤ u → u < A → 0 ≤ v → v < B →
      0 ≤ u' → u' < A → 0 ≤ v' → v' < B → g1 u v ≠ g2 u' v') :
    (fam2 A B g1 g2).Nodup := by
  rw [fam2, List.nodup_flatMap]
  constructor
  · intro u hu
    rw [mem_intRange] at hu
    rw [List.nodup_flatMap]
    constructor
    · intro v hv
      rw [mem_intRange] at hv
      simp only [List.nodup_cons, List.mem_cons, List.not_mem_nil, or_false,
        List.nodup_nil, and_true, not_false_iff]
      exact h12 u v u v hu.1 hu.2 hv.1 hv.2 hu.1 hu.2 hv.1 hv.2
    · rw [List.pairwise_iff_forall_sublist]
      rintro v v' hsub
      have hv := hsub.subset (by simp : v ∈ [v, v'])
      have hv' := hsub.subset (by simp : v' ∈ [v, v'])
      have hnd : ([v, v'] : List ℤ).Nodup := List.Nodup.sublist hsub (intRange_nodup B)
      have hne : v ≠ v' := by
        intro h
        rw [h] at hnd
        simp at hnd
      rw [mem_intRange] at hv hv'
      intro p hp hp'
      simp only [List.mem_cons, List.not_mem_nil, or_false] at hp hp'
      rcases hp with rfl | rfl <;> rcases hp' with h' | h'
      · exact hne (h1 u v u v' hu.1 hu.2 hv.1 hv.2 hu.1 hu.2 hv'.1 hv'.2 h').2
      · exact h12 u v u v' hu.1 hu.2 hv.1 hv.2 hu.1 hu.2 hv'.1 hv'.2 h'
      · exact h12 u v' u v hu.1 hu.2 hv'.1 hv'.2 hu.1 hu.2 hv.1 hv.2 h'.symm
      · exact hne (h2 u v u v' hu.1 hu.2 hv.1 hv.2 hu.1 hu.2 hv'.1 hv'.2 h').2
  · rw [List.pairwise_iff_forall_sublist]
    rintro u u' hsub
    have hu := hsub.subset (by simp : u ∈ [u, u'])
    have hu' := hsub.subset (by simp : u' ∈ [u, u'])
    have hnd : ([u, u'] : List ℤ).Nodup := List.Nodup.sublist hsub (intRange_nodup A)
    have hne : u ≠ u' := by
      intro h
      rw [h] at hnd
      simp at hnd
    rw [mem_intRange] at hu hu'
    intro p hp hp'
    rw [mem_flatMap_pair] at hp hp'
    obtain ⟨v, hv1, hv2, hv⟩ := hp
    obtain ⟨v', hv1', hv2', hv'⟩ := hp'
    rcases hv with rfl | rfl <;> rcases hv' with h' | h'
    · exact hne (h1 u v u' v' hu.1 hu.2 hv1 hv2 hu'.1 hu'.2 hv1' hv2' h').1
    · exact h12 u v u' v' hu.1 hu.2 hv1 hv2 hu'.1 hu'.2 hv1' hv2' h'
    · exact h12 u' v' u v hu'.1 hu'.2 hv1' hv2' hu.1 hu.2 hv1 hv2 h'.symm
    · exact hne (h2 u v u' v' hu.1 hu.2 hv1 hv2 hu'.1 hu'.2 hv1' hv2' h').1

theorem site_inj {Ly x1 y1 x2 y2 : ℤ} (hy1 : 0 ≤ y1) (hy1L : y1 < Ly)
    (hy2 : 0 ≤ y2) (hy2L : y2 < Ly)
    (h : coord_to_site Ly x1 y1 = coord_to_site Ly x2 y2) :
    x1 = x2 ∧ y1 = y2 := by
  unfold coord_to_site at h
  have hLy : 0 < Ly := by omega
  have hd : Ly * (x1 - x2) = y2 - y1 := by ring_nf; linarith
  rcases lt_trichotomy x1 x2 with hlt | heq | hgt
  · exfalso
    have h1 : x1 - x2 ≤ -1 := by omega
    have h2 : Ly * (x1 - x2) ≤ Ly * (-1) := by
      exact mul_le_mul_of_nonneg_left h1 (by omega)
    have h3 : Ly * (-1) = -Ly := by ring
    omega
  · refine ⟨heq, ?_⟩
    subst heq
    omega
  · exfalso
    have h1 : 1 ≤ x1 - x2 := by omega
    have h2 : Ly * 1 ≤ Ly * (x1 - x2) := by
      exact mul_le_mul_of_nonneg_left h1 (by omega)
    have h3 : Ly * 1 = Ly := by ring
    omega

theorem bond_decode {Ly x1 y1 dx1 dy1 x2 y2 dx2 dy2 : ℤ}
    (hy1 : 0 ≤ y1) (hy1L : y1 < Ly) (hd1 : 0 ≤ y1 + dy1) (hd1L : y1 + dy1 < Ly)
    (hy2 : 0 ≤ y2) (hy2L : y2 < Ly) (hd2 : 0 ≤ y2 + dy2) (hd2L : y2 + dy2 < Ly)
    (h : (coord_to_site Ly x1 y1, coord_to_site Ly (x1 + dx1) (y1 + dy1)) =
      (coord_to_site Ly x2 y2, coord_to_site Ly (x2 + dx2) (y2 + dy2))) :
    x1 = x2 ∧ y1 = y2 ∧ dx1 = dx2 ∧ dy1 = dy2 := by
  rw [Prod.ext_iff] at h
  have e1 := site_inj hy1 hy1L hy2 hy2L h.1
  have e2 := site_inj hd1 hd1L hd2 hd2L h.2
  omega

theorem site_up (Ly x y : ℤ) :
    coord_to_site Ly x (y + 1) = coord_to_site Ly x y + 1 := by
  unfold coord_to_site; ring

theorem site_right (Ly x y : ℤ) :
    coord_to_site Ly (x + 1) y = coord_to_site Ly x y + Ly := by
  unfold coord_to_site; ring

theorem site_diag (Ly x y : ℤ) :
    coord_to_site Ly (x + 1) (y + 1) = coord_to_site Ly x y + Ly + 1 := by
  unfold coord_to_site; ring

theorem site_right2 (Ly x y : ℤ) :
    coord_to_site Ly (x + 2) y = coord_to_site Ly x y + 2 * Ly := by
  unfold coord_to_site; ring

theorem site_up2 (Ly x y : ℤ) :
    coord_to_site Ly x (y + 2) = coord_to_site Ly x y + 2 := by
  unfold coord_to_site; ring

theorem ukV_eq (Ly x y : ℤ) :
    uk (coord_to_site Ly x y, coord_to_site Ly x (y + 1)) =
      (coord_to_site Ly x y, coord_to_site Ly x (y + 1)) :=
  uk_of_le (show coord_to_site Ly x y ≤ coord_to_site Ly x (y + 1) by
    have := site_up Ly x y; omega)

theorem ukH_eq (Ly x y : ℤ) (hLy : 0 ≤ Ly) :
    uk (coord_to_site Ly x y, coord_to_site Ly (x + 1) y) =
      (coord_to_site Ly x y, coord_to_site Ly (x + 1) y) :=
  uk_of_le (show coord_to_site Ly x y ≤ coord_to_site Ly (x + 1) y by
    have := site_right Ly x y; omega)

theorem ukD1_eq (Ly x y : ℤ) (hLy : 0 ≤ Ly) :
    uk (coord_to_site Ly x y, coord_to_site Ly (x + 1) (y + 1)) =
      (coord_to_site Ly x y, coord_to_site Ly (x + 1) (y + 1)) :=
  uk_of_le (show coord_to_site Ly x y ≤ coord_to_site Ly (x + 1) (y + 1) by
    have := site_diag Ly x y; omega)

theorem ukD2_eq (Ly x y : ℤ) (hLy : 1 ≤ Ly) :
    uk (coord_to_site Ly (x + 1) y, coord_to_site Ly x (y + 1)) =
      (coord_to_site Ly x (y + 1), coord_to_site Ly (x + 1) y) :=
  uk_of_ge (show coord_to_site Ly x (y + 1) ≤ coord_to_site Ly (x + 1) y by
    have h1 := site_up Ly x y; have h2 := site_right Ly x y; omega)

theorem ukH2_eq (Ly x y : ℤ) (hLy : 0 ≤ Ly) :
    uk (coord_to_site Ly x y, coord_to_site Ly (x + 2) y) =
      (coord_to_site Ly x y, coord_to_site Ly (x + 2) y) :=
  uk_of_le (show coord_to_site Ly x y ≤ coord_to_site Ly (x + 2) y by
    have := site_right2 Ly x y; omega)

theorem ukV2_eq (Ly x y : ℤ) :
    uk (coord_to_site Ly x y, coord_to_site Ly x (y + 2)) =
      (coord_to_site Ly x y, coord_to_site Ly x (y + 2)) :=
  uk_of_le (show coord_to_site Ly x y ≤ coord_to_site Ly x (y + 2) by
    have := site_up2 Ly x y; omega)

/-- A bond whose sites sit at grid positions `(x, y)` and `(x + dx, y + dy)`
with both y-coordinates legal for the column decomposition `Ly*x + y`; the
displacement `(dx, dy)` characterizes the bond class. -/
def BondAt (Ly dx dy : ℤ) (q : ℤ × ℤ) : Prop :=
  ∃ x y x' y', 0 ≤ y ∧ y < Ly ∧ 0 ≤ y' ∧ y' < Ly ∧ x' = x + dx ∧ y' = y + dy ∧
    q = (coord_to_site Ly x y, coord_to_site Ly x' y')

theorem bondAt_eq {Ly dx dy dx' dy' : ℤ} {q : ℤ × ℤ}
    (h : BondAt Ly dx dy q) (h' : BondAt Ly dx' dy' q) :
    dx = dx' ∧ dy = dy' := by
  obtain ⟨x, y, a, b, hy1, hy2, hb1, hb2, rfl, rfl, rfl⟩ := h
  obtain ⟨x2, y2, a2, b2, hy1', hy2', hb1', hb2', he1, he2, he⟩ := h'
  rw [Prod.ext_iff] at he
  have e1 := site_inj hy1 hy2 hy1' hy2' he.1
  have e2 := site_inj hb1 hb2 hb1' hb2' he.2
  omega

theorem nodup_nn_keyed (Lx Ly : ℤ) : ((nnList Lx Ly).map uk).Nodup := by
  rw [nnList, List.map_append, map_fam, map_fam]
  refine List.Nodup.append ?_ ?_ ?_
  · apply nodup_fam
    intro u v u' v' hu0 huA hv0 hvB hu0' huA' hv0' hvB' heq
    rw [ukV_eq, ukV_eq, Prod.ext_iff] at heq
    exact site_inj hv0 (by omega) hv0' (by omega) heq.1
  · apply nodup_fam
    intro u v u' v' hu0 huA hv0 hvB hu0' huA' hv0' hvB' heq
    rw [ukH_eq Ly v u (by omega), ukH_eq Ly v' u' (by omega),
      Prod.ext_iff] at heq
    have := site_inj hu0 huA hu0' huA' heq.1
    exact ⟨this.2, this.1⟩
  · intro q hq hq'
    rw [mem_fam] at hq hq'
    obtain ⟨u, v, hu0, huA, hv0, hvB, rfl⟩ := hq
    obtain ⟨u', v', hu0', huA', hv0', hvB', he⟩ := hq'
    rw [ukV_eq, ukH_eq Ly v' u' (by omega), Prod.ext_iff] at he
    have e1 := site_inj hv0 (by omega) hu0' huA' he.1
    have e2 := site_inj (by omega : (0:ℤ) ≤ v + 1) (by omega) hu0' huA' he.2
    omega

theorem nodup_nnn_keyed (Lx Ly : ℤ) : ((nnnList Lx Ly).map uk).Nodup := by
  rw [nnnList, map_fam2]
  apply nodup_fam2
  · intro u v u' v' hu0 huA hv0 hvB hu0' huA' hv0' hvB' heq
    rw [ukD1_eq Ly v u (by omega), ukD1_eq Ly v' u' (by omega),
      Prod.ext_iff] at heq
    have := site_inj hu0 (by omega) hu0' (by omega) heq.1
    exact ⟨this.2, this.1⟩
  · intro u v u' v' hu0 huA hv0 hvB hu0' huA' hv0' hvB' heq
    rw [ukD2_eq Ly v u (by omega), ukD2_eq Ly v' u' (by omega),
      Prod.ext_iff] at heq
    have := site_inj (by omega : (0:ℤ) ≤ u + 1) (by omega)
      (by omega : (0:ℤ) ≤ u' + 1) (by omega) heq.1
    exact ⟨by omega, this.1⟩
  · intro u v u' v' hu0 huA hv0 hvB hu0' huA' hv0' hvB' heq
    rw [ukD1_eq Ly v u (by omega), ukD2_eq Ly v' u' (by omega),
      Prod.ext_iff] at heq
    have e1 := site_inj hu0 (by omega) (by omega : (0:ℤ) ≤ u' + 1) (by omega) heq.1
    have e2 := site_inj (by omega : (0:ℤ) ≤ u + 1) (by omega) hu0' (by omega) heq.2
    omega

theorem nodup_nnnn_keyed (Lx Ly : ℤ) : ((nnnnList Lx Ly).map uk).Nodup := by
  rw [nnnnList, List.map_append, map_fam, map_fam]
  refine List.Nodup.append ?_ ?_ ?_
  · apply nodup_fam
    intro u v u' v' hu0 huA hv0 hvB hu0' huA' hv0' hvB' heq
    rw [ukH2_eq Ly v u (by omega), ukH2_eq Ly v' u' (by omega),
      Prod.ext_iff] at heq
    have := site_inj hu0 huA hu0' huA' heq.1
    exact ⟨this.2, this.1⟩
  · apply nodup_fam
    intro u v u' v' hu0 huA hv0 hvB hu0' huA' hv0' hvB' heq
    rw [ukV2_eq, ukV2_eq, Prod.ext_iff] at heq
    have := site_inj hu0 (by omega) hu0' (by omega) heq.1
    exact ⟨this.2, this.1⟩
  · intro q hq hq'
    rw [mem_fam] at hq hq'
    obtain ⟨u, v, hu0, huA, hv0, hvB, rfl⟩ := hq
    obtain ⟨u', v', hu0', huA', hv0', hvB', he⟩ := hq'
    rw [ukH2_eq Ly v u (by omega), ukV2_eq, Prod.ext_iff] at he
    have e1 := site_inj hu0 huA hu0' (by omega) he.1
    have e2 := site_inj hu0 huA (by omega : (0:ℤ) ≤ u' + 2) (by omega) he.2
    omega

theorem mem_nn_keyed {Lx Ly : ℤ} {q : ℤ × ℤ} (h : q ∈ (nnList Lx Ly).map uk) :
    BondAt Ly 0 1 q ∨ BondAt Ly 1 0 q := by
  rw [nnList, List.map_append, map_fam, map_fam, List.mem_append,
    mem_fam, mem_fam] at h
  rcases h with ⟨u, v, hu0, huA, hv0, hvB, rfl⟩ | ⟨u, v, hu0, huA, hv0, hvB, rfl⟩
  · left
    rw [ukV_eq]
    exact ⟨u, v, u, v + 1, hv0, by omega, by omega, by omega, by omega, by omega, rfl⟩
  · right
    rw [ukH_eq Ly v u (by omega)]
    exact ⟨v, u, v + 1, u, hu0, huA, hu0, huA, rfl, by omega, rfl⟩

theorem mem_nnn_keyed {Lx Ly : ℤ} {q : ℤ × ℤ} (h : q ∈ (nnnList Lx Ly).map uk) :
    BondAt Ly 1 1 q ∨ BondAt Ly 1 (-1) q := by
  rw [nnnList, map_fam2, mem_fam2] at h
  obtain ⟨u, v, hu0, huA, hv0, hvB, h | h⟩ := h
  · left
    rw [h, ukD1_eq Ly v u (by omega)]
    exact ⟨v, u, v + 1, u + 1, hu0, by omega, by omega, by omega, rfl, rfl, rfl⟩
  · right
    rw [h, ukD2_eq Ly v u (by omega)]
    exact ⟨v, u + 1, v + 1, u, by omega, by omega, hu0, by omega, rfl, by omega, rfl⟩

theorem mem_nnnn_keyed {Lx Ly : ℤ} {q : ℤ × ℤ}
    (h : q ∈ (nnnnList Lx Ly).map uk) :
    BondAt Ly 2 0 q ∨ BondAt Ly 0 2 q := by
  rw [nnnnList, List.map_append, map_fam, map_fam, List.mem_append,
    mem_fam, mem_fam] at h
  rcases h with ⟨u, v, hu0, huA, hv0, hvB, rfl⟩ | ⟨u, v, hu0, huA, hv0, hvB, rfl⟩
  · left
    rw [ukH2_eq Ly v u (by omega)]
    exact ⟨v, u, v + 2, u, hu0, huA, hu0, huA, rfl, by omega, rfl⟩
  · right
    rw [ukV2_eq]
    exact ⟨v, u, v, u + 2, hu0, by omega, by omega, by omega, by omega, rfl, rfl⟩

/-- Grid coordinates legal for an `Lx × Ly` open-boundary lattice. -/
def onGrid (Lx Ly x y : ℤ) : Prop := 0 ≤ x ∧ x < Lx ∧ 0 ≤ y ∧ y < Ly

/-- The pair joins two on-grid sites (indexed `Ly*x + y`) at squared
Euclidean distance `d2`. -/
def pairAtDist (Lx Ly d2 : ℤ) (p : ℤ × ℤ) : Prop :=
  ∃ x1 y1 x2 y2, onGrid Lx Ly x1 y1 ∧ onGrid Lx Ly x2 y2 ∧
    p = (coord_to_site Ly x1 y1, coord_to_site Ly x2 y2) ∧
    (x1 - x2) ^ 2 + (y1 - y2) ^ 2 = d2

/-- The pair joins two on-grid sites at distance 2 along a single axis. -/
def axialPair (Lx Ly : ℤ) (p : ℤ × ℤ) : Prop :=
  ∃ x1 y1 x2 y2, onGrid Lx Ly x1 y1 ∧ onGrid Lx Ly x2 y2 ∧
    p = (coord_to_site Ly x1 y1, coord_to_site Ly x2 y2) ∧
    ((x1 = x2 ∧ (y1 - y2) ^ 2 = 4) ∨ (y1 = y2 ∧ (x1 - x2) ^ 2 = 4))

theorem nn_bonds (Lx Ly : ℤ) :
    ∀ p ∈ nnList Lx Ly, p.1 ≠ p.2 ∧ pairAtDist Lx Ly 1 p := by
  intro p hp
  rw [nnList, List.mem_append, mem_fam, mem_fam] at hp
  rcases hp with ⟨u, v, hu0, huA, hv0, hvB, rfl⟩ | ⟨u, v, hu0, huA, hv0, hvB, rfl⟩
  · constructor
    · show coord_to_site Ly u v ≠ coord_to_site Ly u (v + 1)
      have := site_up Ly u v
      omega
    · exact ⟨u, v, u, v + 1, ⟨hu0, huA, hv0, by omega⟩,
        ⟨hu0, huA, by omega, by omega⟩, rfl, by ring_nf⟩
  · constructor
    · show coord_to_site Ly v u ≠ coord_to_site Ly (v + 1) u
      have := site_right Ly v u
      omega
    · exact ⟨v, u, v + 1, u, ⟨hv0, by omega, hu0, huA⟩,
        ⟨by omega, by omega, hu0, huA⟩, rfl, by ring_nf⟩

theorem nnn_bonds (Lx Ly : ℤ) :
    ∀ p ∈ nnnList Lx Ly, p.1 ≠ p.2 ∧ pairAtDist Lx Ly 2 p := by
  intro p hp
  rw [nnnList, mem_fam2] at hp
  obtain ⟨u, v, hu0, huA, hv0, hvB, h | h⟩ := hp <;> subst h
  · constructor
    · show coord_to_site Ly v u ≠ coord_to_site Ly (v + 1) (u + 1)
      have := site_diag Ly v u
      omega
    · exact ⟨v, u, v + 1, u + 1, ⟨hv0, by omega, hu0, by omega⟩,
        ⟨by omega, by omega, by omega, by omega⟩, rfl, by ring_nf⟩
  · constructor
    · show coord_to_site Ly (v + 1) u ≠ coord_to_site Ly v (u + 1)
      have h1 := site_right Ly v u
      have h2 := site_up Ly v u
      omega
    · exact ⟨v + 1, u, v, u + 1, ⟨by omega, by omega, hu0, by omega⟩,
        ⟨hv0, by omega, by omega, by omega⟩, rfl, by ring_nf⟩

theorem nnnn_bonds (Lx Ly : ℤ) :
    ∀ p ∈ nnnnList Lx Ly,
      p.1 ≠ p.2 ∧ pairAtDist Lx Ly 4 p ∧ axialPair Lx Ly p := by
  intro p hp
  rw [nnnnList, List.mem_append, mem_fam, mem_fam] at hp
  rcases hp with ⟨u, v, hu0, huA, hv0, hvB, rfl⟩ | ⟨u, v, hu0, huA, hv0, hvB, rfl⟩
  · refine ⟨?_, ?_, ?_⟩
    · show coord_to_site Ly v u ≠ coord_to_site Ly (v + 2) u
      have := site_right2 Ly v u
      omega
    · exact ⟨v, u, v + 2, u, ⟨hv0, by omega, hu0, huA⟩,
        ⟨by omega, by omega, hu0, huA⟩, rfl, by ring_nf⟩
    · exact ⟨v, u, v + 2, u, ⟨hv0, by omega, hu0, huA⟩,
        ⟨by omega, by omega, hu0, huA⟩, rfl, Or.inr ⟨rfl, by ring_nf⟩⟩
  · refine ⟨?_, ?_, ?_⟩
    · show coord_to_site Ly v u ≠ coord_to_site Ly v (u + 2)
      have := site_up2 Ly v u
      omega
    · exact ⟨v, u, v, u + 2, ⟨hv0, hvB, hu0, by omega⟩,
        ⟨hv0, hvB, by omega, by omega⟩, rfl, by ring_nf⟩
    · exact ⟨v, u, v, u + 2, ⟨hv0, hvB, hu0, by omega⟩,
        ⟨hv0, hvB, by omega, by omega⟩, rfl, Or.inl ⟨rfl, by ring_nf⟩⟩

/-- Claim C6: lattice bond invariant.  For every `Lx` and `Ly` (in
particular all positive ones), `buildlattice` lists each unordered site pair
at most once across and within the NN, NNN and NNNN lists (no duplicates
under the unordered key `uk`), lists no self-pairs, and each listed pair
joins two on-grid sites (site index `Ly*x + y`) at exact squared Euclidean
distance 1 (NN), 2 (NNN), or 4 — two steps along a single axis (NNNN). -/
theorem lattice_bond_invariant (Lx Ly : ℤ) :
    (((buildlattice Lx Ly).1 ++ (buildlattice Lx Ly).2.1 ++
        (buildlattice Lx Ly).2.2).map uk).Nodup ∧
      (∀ p ∈ (buildlattice Lx Ly).1, p.1 ≠ p.2 ∧ pairAtDist Lx Ly 1 p) ∧
      (∀ p ∈ (buildlattice Lx Ly).2.1, p.1 ≠ p.2 ∧ pairAtDist Lx Ly 2 p) ∧
      (∀ p ∈ (buildlattice Lx Ly).2.2,
        p.1 ≠ p.2 ∧ pairAtDist Lx Ly 4 p ∧ axialPair Lx Ly p) := by
  simp only [buildlattice]
  refine ⟨?_, nn_bonds Lx Ly, nnn_bonds Lx Ly, nnnn_bonds Lx Ly⟩
  rw [List.map_append, List.map_append]
  refine List.Nodup.append
    (List.Nodup.append (nodup_nn_keyed Lx Ly) (nodup_nnn_keyed Lx Ly) ?_)
    (nodup_nnnn_keyed Lx Ly) ?_
  · intro q hq hq'
    have h1 := mem_nn_keyed hq
    have h2 := mem_nnn_keyed hq'
    rcases h1 with h1 | h1 <;> rcases h2 with h2 | h2 <;>
      rcases bondAt_eq h1 h2 with ⟨e1, e2⟩ <;> omega
  · intro q hq hq'
    rw [List.mem_append] at hq
    have h2 := mem_nnnn_keyed hq'
    rcases hq with hq | hq
    · have h1 := mem_nn_keyed hq
      rcases h1 with h1 | h1 <;> rcases h2 with h2 | h2 <;>
        rcases bondAt_eq h1 h2 with ⟨e1, e2⟩ <;> omega
    · have h1 := mem_nnn_keyed hq
      rcases h1 with h1 | h1 <;> rcases h2 with h2 | h2 <;>
        rcases bondAt_eq h1 h2 with ⟨e1, e2⟩ <;> omega

theorem intRange_nonpos {k : ℤ} (h : k ≤ 0) : intRange k = [] := by
  unfold intRange
  rw [show k.toNat = 0 by omega]
  rfl

theorem flatMap_const_nil {α β : Type} (l : List α) :
    (l.flatMap fun _ => ([] : List β)) = [] := by
  induction l with
  | nil => rfl
  | cons a t ih => simp [ih]

theorem fam_empty_left {A B : ℤ} {g : ℤ → ℤ → ℤ × ℤ} (h : A ≤ 0) :
    fam A B g = [] := by
  rw [fam, intRange_nonpos h]
  rfl

theorem fam_empty_right {A B : ℤ} {g : ℤ → ℤ → ℤ × ℤ} (h : B ≤ 0) :
    fam A B g = [] := by
  rw [fam]
  have : ∀ u, ((intRange B).map fun v => g u v) = [] := by
    intro u
    rw [intRange_nonpos h]
    rfl
  calc (intRange A).flatMap (fun u => (intRange B).map fun v => g u v)
      = (intRange A).flatMap (fun _ => []) :=
        List.flatMap_congr fun u _ => this u
    _ = [] := flatMap_const_nil _

theorem fam2_empty_left {A B : ℤ} {g1 g2 : ℤ → ℤ → ℤ × ℤ} (h : A ≤ 0) :
    fam2 A B g1 g2 = [] := by
  rw [fam2, intRange_nonpos h]
  rfl

theorem fam2_empty_right {A B : ℤ} {g1 g2 : ℤ → ℤ → ℤ × ℤ} (h : B ≤ 0) :
    fam2 A B g1 g2 = [] := by
  rw [fam2]
  have : ∀ u, ((intRange B).flatMap fun v => [g1 u v, g2 u v]) = [] := by
    intro u
    rw [intRange_nonpos h]
    rfl
  calc (intRange A).flatMap (fun u => (intRange B).flatMap fun v => [g1 u v, g2 u v])
      = (intRange A).flatMap (fun _ => []) :=
        List.flatMap_congr fun u _ => this u
    _ = [] := flatMap_const_nil _

/-- Claim C8 counterexample: `buildlattice` with a non-positive dimension
does not fail at all — the loops simply run over empty Python ranges — so
the construction returns three empty bond lists instead of raising an
`InvalidConfiguration` error. -/
theorem buildlattice_nonpositive_counterexample :
    buildlattice 0 5 = ([], [], []) := rfl

/-- Claim C8 amended: lattice construction never fails.  For non-positive
dimensions every loop range is empty, so `buildlattice` succeeds and
returns three empty bond lists (and for positive dimensions it also
succeeds, being a total function). -/
theorem buildlattice_nonpositive_empty (Lx Ly : ℤ) (h : Lx ≤ 0 ∨ Ly ≤ 0) :
    buildlattice Lx Ly = ([], [], []) := by
  rcases h with h | h
  · rw [buildlattice, nnList, nnnList, nnnnList,
      fam_empty_left h, fam_empty_right (show Lx - 1 ≤ 0 by omega),
      fam2_empty_right (show Lx - 1 ≤ 0 by omega),
      fam_empty_right (show Lx - 2 ≤ 0 by omega),
      fam_empty_right h]
    rfl
  · rw [buildlattice, nnList, nnnList, nnnnList,
      fam_empty_right (show Ly - 1 ≤ 0 by omega), fam_empty_left h,
      fam2_empty_left (show Ly - 1 ≤ 0 by omega),
      fam_empty_left h, fam_empty_left (show Ly - 2 ≤ 0 by omega)]
    rfl

/-- Witness for the amended claim C8 at the concrete input `Lx = -3`,
`Ly = 2`. -/
theorem buildlattice_nonpositive_empty_witness :
    ((-3 : ℤ) ≤ 0 ∨ (2 : ℤ) ≤ 0) ∧ buildlattice (-3) 2 = ([], [], []) :=
  ⟨Or.inl (by norm_num), buildlattice_nonpositive_empty (-3) 2 (Or.inl (by norm_num))⟩

/-- Real value of a binary site occupation, `tf.cast(samples[:,j], float)`. -/
def cval (c : Fin 2) : ℝ := ((c : ℕ) : ℝ)

/-- Single-site flip `flip_samples[:,j] = 1 - flip_samples[:,j]`:
complement site `j` of the configuration. -/
def flipAt (s : List (Fin 2)) (j : ℕ) : List (Fin 2) :=
  s.set j (1 - s.getD j 0)

/-- `VariationalMonteCarlo.localenergy` for one configuration `s` with its
already-computed log-amplitude `lp` (the method's `logpsi` argument):
the detuning loop, the three bond loops (couplings `V`, `V/8`, `V/64`), and
the off-diagonal loop adding `-0.5*Omega*exp(logpsi(flipped) - lp)` for the
flip of each site, where the flipped amplitude is recomputed through the
model and the unflipped one is the passed-in `lp`. -/
noncomputable def localenergy {nh : ℕ} (M : RNN nh) (Lx Ly : ℤ)
    (V Omega delta : ℝ) (s : List (Fin 2)) (lp : ℝ) : ℝ :=
  let N := (Lx * Ly).toNat
  let e1 := (List.range N).foldl
    (fun acc j => acc + -delta * cval (s.getD j 0)) 0
  let e2 := (nnList Lx Ly).foldl
    (fun acc p => acc + V * (cval (s.getD p.1.toNat 0) * cval (s.getD p.2.toNat 0))) e1
  let e3 := (nnnList Lx Ly).foldl
    (fun acc p => acc + V / 8 * (cval (s.getD p.1.toNat 0) * cval (s.getD p.2.toNat 0))) e2
  let e4 := (nnnnList Lx Ly).foldl
    (fun acc p => acc + V / 64 * (cval (s.getD p.1.toNat 0) * cval (s.getD p.2.toNat 0))) e3
  (List.range N).foldl
    (fun acc j => acc + -(0.5 * Omega) * Real.exp (logpsi M N (flipAt s j) - lp)) e4

theorem foldl_add_map {α : Type} (f : α → ℝ) :
    ∀ (l : List α) (a : ℝ),
      l.foldl (fun acc x => acc + f x) a = a + (l.map f).sum := by
  intro l
  induction l with
  | nil => intro a; simp
  | cons x t ih =>
    intro a
    simp only [List.foldl_cons, List.map_cons, List.sum_cons, ih]
    ring

/-- Claim C2: for every configuration and passed-in log-amplitude `lp`,
`localenergy` returns the diagonal part
`-delta*Σ_j s_j + V*Σ_NN s_i s_j + (V/8)*Σ_NNN s_i s_j + (V/64)*Σ_NNNN s_i s_j`
plus the off-diagonal part `Σ_j -0.5*Omega*exp(logpsi(flip_j(s)) - lp)`,
with the unflipped log-amplitude taken from the argument, not recomputed.
The batch version of the method applies this row-wise to every
configuration of the batch. -/
theorem localenergy_closed_form {nh : ℕ} (M : RNN nh) (Lx Ly : ℤ)
    (V Omega delta : ℝ) (s : List (Fin 2)) (lp : ℝ) :
    localenergy M Lx Ly V Omega delta s lp =
      -delta * ((List.range (Lx * Ly).toNat).map fun j => cval (s.getD j 0)).sum
        + V * ((nnList Lx Ly).map fun p =>
            cval (s.getD p.1.toNat 0) * cval (s.getD p.2.toNat 0)).sum
        + V / 8 * ((nnnList Lx Ly).map fun p =>
            cval (s.getD p.1.toNat 0) * cval (s.getD p.2.toNat 0)).sum
        + V / 64 * ((nnnnList Lx Ly).map fun p =>
            cval (s.getD p.1.toNat 0) * cval (s.getD p.2.toNat 0)).sum
        + ((List.range (Lx * Ly).toNat).map fun j =>
            -(0.5 * Omega) *
              Real.exp (logpsi M (Lx * Ly).toNat (flipAt s j) - lp)).sum := by
  simp only [localenergy, foldl_add_map, List.sum_map_mul_left]
  ring

/-- Batch mean, `tf.reduce_mean` / `np.mean` over a batch vector. -/
noncomputable def mean (l : List ℝ) : ℝ := l.sum / l.length

/-- `vmc.localenergy(samples, logpsi)` applied to a batch: row-wise local
energies of the configurations paired with their log-amplitudes. -/
noncomputable def elocBatch {nh : ℕ} (M : RNN nh) (Lx Ly : ℤ)
    (V Omega delta : ℝ) (samples : List (List (Fin 2))) (lps : List ℝ) :
    List ℝ :=
  List.zipWith (fun s lp => localenergy M Lx Ly V Omega delta s lp) samples lps

/-- One loss evaluation of the cell-7 training loop: recompute
`logpsi = vmc.logpsi(samples)` (the gradient-tracked forward pass), compute
`eloc = vmc.localenergy(samples, logpsi)` and `Eo = reduce_mean(eloc)`
inside `tape.stop_recording()`, and form
`loss = reduce_mean(2*logpsi*stop_gradient(eloc) - 2*stop_gradient(Eo)*logpsi)`.
`stop_gradient`/`stop_recording` affect only gradient bookkeeping, not the
computed value, so they are value-level identities here. -/
noncomputable def trainLoss {nh : ℕ} (M : RNN nh) (Lx Ly : ℤ)
    (V Omega delta : ℝ) (samples : List (List (Fin 2))) : ℝ :=
  let lps := samples.map (logpsi M (Lx * Ly).toNat)
  let eloc := elocBatch M Lx Ly V Omega delta samples lps
  let Eo := mean eloc
  mean (List.zipWith (fun lp e => 2 * lp * e - 2 * Eo * lp) lps eloc)

theorem zipWith_self_map {α β γ : Type} (f : α → β → γ) (u : α → β) :
    ∀ l : List α, List.zipWith f l (l.map u) = l.map fun x => f x (u x) := by
  intro l
  induction l with
  | nil => rfl
  | cons x t ih => simp [ih]

theorem zipWith_map_map {α β γ δ : Type} (f : β → γ → δ) (g : α → β)
    (h : α → γ) :
    ∀ l : List α,
      List.zipWith f (l.map g) (l.map h) = l.map fun x => f (g x) (h x) := by
  intro l
  induction l with
  | nil => rfl
  | cons x t ih => simp [ih]

/-- Claim C4: per training iteration the scalar loss equals
`mean(2*logpsi(s_i)*eloc_i - 2*E0*logpsi(s_i))`, where
`eloc_i = localenergy(s_i, logpsi(s_i))` is computed from the just-computed
log-amplitudes and `E0 = mean(eloc)` is the batch mean; the `logpsi` used is
the teacher-forced rescoring pass over the sampled configurations (whose
value is half of the `logP` that `sample` returned, so the loss would
differ by a factor of two had the sampling bookkeeping been reused). -/
theorem vmc_loss_formula {nh : ℕ} (M : RNN nh) (Lx Ly : ℤ)
    (V Omega delta : ℝ) (samples : List (List (Fin 2))) :
    trainLoss M Lx Ly V Omega delta samples =
      mean (samples.map fun s =>
        2 * logpsi M (Lx * Ly).toNat s *
            localenergy M Lx Ly V Omega delta s (logpsi M (Lx * Ly).toNat s)
          - 2 * mean (samples.map fun t =>
                localenergy M Lx Ly V Omega delta t (logpsi M (Lx * Ly).toNat t)) *
              logpsi M (Lx * Ly).toNat s) := by
  simp only [trainLoss, elocBatch, zipWith_self_map, zipWith_map_map]

/-- End-of-iteration bookkeeping of the cell-7 training loop:
`energies = eloc.numpy(); avg_E = np.mean(energies)/float(N);
var_E = np.var(energies)/float(N); energy.append(avg_E)`.  The source
computes `var_E` but never appends it anywhere (the `variance` list stays
as initialized), so the record state `(energy, variance)` gains one entry
in its first component only; `_var_E` mirrors the discarded computation. -/
noncomputable def trainRecords {nh : ℕ} (M : RNN nh) (Lx Ly : ℤ)
    (V Omega delta : ℝ) (samples : List (List (Fin 2)))
    (recs : List ℝ × List ℝ) : List ℝ × List ℝ :=
  let lps := samples.map (logpsi M (Lx * Ly).toNat)
  let eloc := elocBatch M Lx Ly V Omega delta samples lps
  let avg_E := mean eloc / ((Lx * Ly).toNat : ℝ)
  let _var_E := mean (eloc.map fun e => (e - mean eloc) ^ 2) / ((Lx * Ly).toNat : ℝ)
  (recs.1 ++ [avg_E], recs.2)

/-- Claim C9 counterexample: after one training iteration started from
empty records, the energy record has gained its entry but the variance
record is still empty — the loop never appends to `variance`, so the claim
that each iteration appends one entry to the variance record fails. -/
theorem variance_record_counterexample :
    (trainRecords M0 1 1 7 1 1 [[0]] ([], [])).2 = [] ∧
      (trainRecords M0 1 1 7 1 1 [[0]] ([], [])).1.length = 1 :=
  ⟨rfl, rfl⟩

/-- Claim C9 amended: each training iteration appends exactly one entry to
the energy record, holding `mean(eloc)/N` (the mean energy density of the
batch), and leaves the variance record untouched; `np.var(eloc)/N` is
computed but discarded. -/
theorem training_records_amended {nh : ℕ} (M : RNN nh) (Lx Ly : ℤ)
    (V Omega delta : ℝ) (samples : List (List (Fin 2)))
    (recs : List ℝ × List ℝ) :
    trainRecords M Lx Ly V Omega delta samples recs =
      (recs.1 ++ [mean (elocBatch M Lx Ly V Omega delta samples
            (samples.map (logpsi M (Lx * Ly).toNat))) / ((Lx * Ly).toNat : ℝ)],
        recs.2) := rfl

/-- Elementwise `log(1e-10 + probs) * one_hot(samples)` reduced over the
K axis, with the tensor runtime's broadcasting rule on the sequence axis:
equal lengths multiply pointwise, a length-1 operand broadcasts, and any
other length combination is a runtime shape error (`none`). -/
noncomputable def bcastLog : List (Fin 2 → ℝ) → List (Fin 2) → Option (List ℝ)
  | ps, cs =>
    if ps.length = cs.length then
      some ((ps.zip cs).map fun q => Real.log (1e-10 + q.1 q.2))
    else
      match ps, cs with
      | [p], cs => some (cs.map fun c => Real.log (1e-10 + p c))
      | ps, [c] => some (ps.map fun p => Real.log (1e-10 + p c))
      | _, _ => none

/-- `VariationalMonteCarlo.logpsi` on a configuration of arbitrary length:
the slice `samples[:, 0:N-1]` truncates silently (Python slicing), the GRU
runs over whatever sequence it gets, and the final multiplication of the
per-step probabilities with the one-hot samples is subject to the
broadcasting rule; a length mismatch is a runtime error, not a
`ShapeMismatch`. -/
noncomputable def logpsiTF {nh : ℕ} (M : RNN nh) (N : ℕ) (s : List (Fin 2)) :
    Option ℝ :=
  let inputs := x0 :: (s.take (N - 1)).map onehot
  let probs := runRNN M inputs (h0 nh)
  (bcastLog probs s).map fun l => 0.5 * l.sum

/-- `VariationalMonteCarlo.localenergy` with the tensor runtime's actual
shape behavior: every `samples[:, j]` access fails (`none`) when `j` is out
of range, and the flipped-configuration rescoring goes through `logpsiTF`;
no shape validation of its own is performed anywhere. -/
noncomputable def localenergyTF {nh : ℕ} (M : RNN nh) (Lx Ly : ℤ)
    (V Omega delta : ℝ) (s : List (Fin 2)) (lp : ℝ) : Option ℝ :=
  let N := (Lx * Ly).toNat
  let e1 := (List.range N).foldl
    (fun acc j => acc.bind fun a =>
      (s[j]?).map fun c => a + -delta * cval c) (some 0)
  let e2 := (nnList Lx Ly).foldl
    (fun acc p => acc.bind fun a =>
      (s[p.1.toNat]?).bind fun c1 => (s[p.2.toNat]?).map fun c2 =>
        a + V * (cval c1 * cval c2)) e1
  let e3 := (nnnList Lx Ly).foldl
    (fun acc p => acc.bind fun a =>
      (s[p.1.toNat]?).bind fun c1 => (s[p.2.toNat]?).map fun c2 =>
        a + V / 8 * (cval c1 * cval c2)) e2
  let e4 := (nnnnList Lx Ly).foldl
    (fun acc p => acc.bind fun a =>
      (s[p.1.toNat]?).bind fun c1 => (s[p.2.toNat]?).map fun c2 =>
        a + V / 64 * (cval c1 * cval c2)) e3
  (List.range N).foldl
    (fun acc j => acc.bind fun a =>
      if j < s.length then
        (logpsiTF M N (flipAt s j)).map fun flp =>
          a + -(0.5 * Omega) * Real.exp (flp - lp)
      else none) e4

/-- Claim C7 counterexample: on the 1×1 lattice (N = 1) a call with a
length-2 configuration — configuration length ≠ N — does not fail at all:
every index stays in range and the final broadcast of the single per-step
distribution against the two sites succeeds, so the call returns a value
instead of a `ShapeMismatch` error. -/
theorem shape_mismatch_counterexample :
    (localenergyTF M0 1 1 7 1 1 [0, 1] 0).isSome = true := rfl

/-- Claim C7 amended: `localenergy` performs no shape validation.  A call
whose configuration length differs from N either returns a value silently
(N = 1 with a length-2 configuration: the broadcast succeeds) or dies with
an out-of-range tensor indexing error of the runtime (N = 4 with a length-2
configuration), never with a dedicated `ShapeMismatch` error. -/
theorem localenergy_no_shape_check (lp : ℝ) :
    (localenergyTF M0 1 1 7 1 1 [0, 1] lp).isSome = true ∧
      localenergyTF M0 2 2 7 1 1 [0, 1] lp = none :=
  ⟨rfl, rfl⟩

/-- A heap of numpy-style arrays, addressed by allocation index; models the
aliasing structure of the off-diagonal loop, where `np.copy(samples)`
allocates a fresh array and `flip_samples[:,j] = 1 - flip_samples[:,j]`
writes in place through the fresh address only. -/
structure Store where
  arrays : List (List (Fin 2))

/-- Read the array at address `a`. -/
def Store.read (st : Store) (a : ℕ) : List (Fin 2) := st.arrays.getD a []

/-- `np.copy`-style allocation: append a fresh array, return its address. -/
def Store.alloc (st : Store) (v : List (Fin 2)) : Store × ℕ :=
  (⟨st.arrays ++ [v]⟩, st.arrays.length)

/-- In-place overwrite of the array at address `a`. -/
def Store.write (st : Store) (a : ℕ) (v : List (Fin 2)) : Store :=
  ⟨st.arrays.set a v⟩

/-- One iteration of the off-diagonal loop of `localenergy`, acting on the
store: `flip_samples = np.copy(samples)` (fresh allocation of the array at
the caller's address `a`), the in-place single-site complement at site `j`,
and the rescoring `self.logpsi(flip_samples)` contributing
`-0.5*Omega*exp(flip_logpsi - lp)` to the accumulator. -/
noncomputable def offDiagStep {nh : ℕ} (M : RNN nh) (N : ℕ) (Omega : ℝ)
    (a : ℕ) (lp : ℝ) (acc : ℝ × Store) (j : ℕ) : ℝ × Store :=
  let st := acc.2
  let al := st.alloc (st.read a)
  let st1 := al.1
  let fa := al.2
  let cur := st1.read fa
  let st2 := st1.write fa (cur.set j (1 - cur.getD j 0))
  let flp := logpsi M N (st2.read fa)
  (acc.1 + -(0.5 * Omega) * Real.exp (flp - lp), st2)

/-- The whole off-diagonal loop `for j in range(N)` over the store. -/
noncomputable def offDiagMut {nh : ℕ} (M : RNN nh) (N : ℕ) (Omega : ℝ)
    (a : ℕ) (lp : ℝ) (st0 : Store) : ℝ × Store :=
  (List.range N).foldl (offDiagStep M N Omega a lp) (0, st0)

/-- `VariationalMonteCarlo.localenergy` over the store: the diagonal terms
only read the caller's array at address `a`; the off-diagonal loop runs
`offDiagStep` N times; the result pairs the local energy with the final
store. -/
noncomputable def localenergyMut {nh : ℕ} (M : RNN nh) (Lx Ly : ℤ)
    (V Omega delta : ℝ) (a : ℕ) (lp : ℝ) (st : Store) : ℝ × Store :=
  let s := st.read a
  let N := (Lx * Ly).toNat
  let e1 := (List.range N).foldl
    (fun acc j => acc + -delta * cval (s.getD j 0)) 0
  let e2 := (nnList Lx Ly).foldl
    (fun acc p => acc + V * (cval (s.getD p.1.toNat 0) * cval (s.getD p.2.toNat 0))) e1
  let e3 := (nnnList Lx Ly).foldl
    (fun acc p => acc + V / 8 * (cval (s.getD p.1.toNat 0) * cval (s.getD p.2.toNat 0))) e2
  let e4 := (nnnnList Lx Ly).foldl
    (fun acc p => acc + V / 64 * (cval (s.getD p.1.toNat 0) * cval (s.getD p.2.toNat 0))) e3
  let od := offDiagMut M (Lx * Ly).toNat Omega a lp st
  (e4 + od.1, od.2)

theorem set_append_singleton {α : Type} (l : List α) (v w : α) :
    (l ++ [v]).set l.length w = l ++ [w] := by
  induction l with
  | nil => rfl
  | cons x t ih => simp [ih]

theorem offDiagStep_arrays {nh : ℕ} (M : RNN nh) (N : ℕ) (Omega : ℝ)
    (a : ℕ) (lp : ℝ) (acc : ℝ × Store) (j : ℕ) :
    ∃ w, ((offDiagStep M N Omega a lp acc j).2).arrays =
      acc.2.arrays ++ [w] := by
  simp only [offDiagStep, Store.alloc, Store.write]
  exact ⟨_, set_append_singleton _ _ _⟩

theorem foldl_offDiag_extends {nh : ℕ} (M : RNN nh) (N : ℕ) (Omega : ℝ)
    (a : ℕ) (lp : ℝ) :
    ∀ (l : List ℕ) (acc : ℝ × Store),
      ∃ ext, ((l.foldl (offDiagStep M N Omega a lp) acc).2).arrays =
        acc.2.arrays ++ ext := by
  intro l
  induction l with
  | nil => intro acc; exact ⟨[], by simp⟩
  | cons j t ih =>
    intro acc
    obtain ⟨ext, hext⟩ := ih (offDiagStep M N Omega a lp acc j)
    obtain ⟨w, hw⟩ := offDiagStep_arrays M N Omega a lp acc j
    refine ⟨[w] ++ ext, ?_⟩
    rw [List.foldl_cons, hext, hw, List.append_assoc]

/-- Claim C10: `localenergy` leaves its input configurations unchanged.
The single-site flips of the off-diagonal loop are applied to fresh
`np.copy` allocations, so after the call every pre-existing array of the
store — in particular the caller's configuration array at address `a` —
reads exactly as before the call. -/
theorem localenergy_preserves_input {nh : ℕ} (M : RNN nh) (Lx Ly : ℤ)
    (V Omega delta : ℝ) (a : ℕ) (lp : ℝ) (st : Store) (b : ℕ)
    (hb : b < st.arrays.length) :
    ((localenergyMut M Lx Ly V Omega delta a lp st).2).read b = st.read b := by
  obtain ⟨ext, hext⟩ :=
    foldl_offDiag_extends M (Lx * Ly).toNat Omega a lp
      (List.range (Lx * Ly).toNat) (0, st)
  show ((offDiagMut M (Lx * Ly).toNat Omega a lp st).2).read b = st.read b
  rw [offDiagMut] at *
  unfold Store.read
  rw [hext]
  exact List.getD_append _ _ _ b hb

/-- Witness for claim C10: a concrete one-array store on the 1×2 lattice;
after the call the caller's array still reads `[0, 1]`. -/
theorem localenergy_preserves_input_witness :
    0 < (Store.mk [[0, 1]]).arrays.length ∧
      ((localenergyMut M0 1 2 7 1 1 0 0 (Store.mk [[0, 1]])).2).read 0 =
        (Store.mk [[0, 1]]).read 0 :=
  ⟨by decide, localenergy_preserves_input M0 1 2 7 1 1 0 0 (Store.mk [[0, 1]]) 0
    (by decide)⟩
